import Mathlib

/-!
# Verification of the coordinate-descent attention repository

Shallow embedding of `coordinate_descent_attention.py` over the reals.
Tensors are modelled as functions `Fin q → Fin n → ℝ` (the last two
dimensions, query × key; leading batch/head dimensions are irrelevant to
the verified properties and elide to a single slice).  The float sentinel
`-torch.finfo(dtype).max` is modelled by an explicit real parameter
`mv` (instantiated with the float32 value `-(2^128 - 2^104)` on concrete
inputs); real arithmetic is exact, so floating-point underflow does not
occur in the model.
-/

namespace CDA

/-- A score matrix slice: queries × keys. -/
def Mat (q n : ℕ) : Type := Fin q → Fin n → ℝ

/-- Source `log(t, eps = 1e-20)`: `torch.log(t.clamp(min = eps))`. -/
noncomputable def log (t : ℝ) : ℝ := Real.log (max t 1e-20)

/-- Source default `clamp_fn = F.relu`. -/
def relu (x : ℝ) : ℝ := max x 0

/-- `x.logsumexp(dim = -1)` along a key row. -/
noncomputable def logsumexp {n : ℕ} (x : Fin n → ℝ) : ℝ := Real.log (∑ j, Real.exp (x j))

/-- `s.masked_fill(~mask, v)`: entries where the mask is `false` are
replaced by `v`. -/
def maskFill {q n : ℕ} (m : Fin q → Fin n → Bool) (v : ℝ) (s : Mat q n) :
    Mat q n := fun i j => if m i j then s i j else v

/-- The solver's `if exists(mask): s = s.masked_fill(~mask, mask_value)`. -/
def applyMask {q n : ℕ} (mask : Option (Fin q → Fin n → Bool)) (v : ℝ)
    (s : Mat q n) : Mat q n :=
  match mask with
  | none => s
  | some m => maskFill m v s

/-- The running state of the solver loop: the (re-bound) local score
tensor `s`, the dual `a` (shape queries × 1, stored as a row vector) and
the dual `b`. -/
structure CoorState (q n : ℕ) where
  s : Mat q n
  a : Fin q → ℝ
  b : Mat q n

/-- One iteration of the `coor_descent` loop (source lines 36–41):
mask the scores, recompute the row log-normalizer `a`, update `b`. -/
noncomputable def coorStep {q n : ℕ} (mask : Option (Fin q → Fin n → Bool)) (mv k eps : ℝ)
    (clamp : ℝ → ℝ) (st : CoorState q n) : CoorState q n :=
  let s := applyMask mask mv st.s
  let a := fun i => eps * log k - eps * logsumexp (fun j => (s i j + st.b i j) / eps)
  { s := s, a := a, b := fun i j => -(clamp (s i j + a i)) }

/-- The state on entry to the solver loop: `b = -clamp_fn(s)` (source
line 34); `a` is not yet bound in Python, the total model initializes it
to `0` (the Option-valued model `coor_descentO` below tracks unboundness
faithfully). -/
def coorInit {q n : ℕ} (clamp : ℝ → ℝ) (s : Mat q n) : CoorState q n :=
  { s := s, a := fun _ => 0, b := fun i j => -(clamp (s i j)) }

/-- Source `coor_descent(s, n_iters, k, eps, clamp_fn, mask)` (lines
22–47), with the dtype sentinel `-torch.finfo(s.dtype).max` abstracted
as the parameter `mv`.  Meaningful for `n_iters ≥ 1` (the source raises
for `n_iters = 0`, see `coor_descentO`). -/
noncomputable def coor_descent {q n : ℕ} (s : Mat q n) (n_iters : ℕ) (k eps : ℝ)
    (clamp : ℝ → ℝ) (mask : Option (Fin q → Fin n → Bool)) (mv : ℝ) :
    Mat q n :=
  let st := (coorStep mask mv k eps clamp)^[n_iters] (coorInit clamp s)
  let sF := applyMask mask mv st.s
  fun i j => Real.exp ((sF i j + st.a i + st.b i j) / eps)

/-- The float32 `torch.finfo(torch.float32).max` as an exact real:
`(2 - 2⁻²³) · 2¹²⁷`. -/
def float32Max : ℝ := 2 ^ 128 - 2 ^ 104

/-- One loop iteration of the Option-valued model: identical to
`coorStep`, except that the Python local `a` is tracked as an `Option`
(it is unbound — `none` — until the first iteration assigns it). -/
noncomputable def coorStepO {q n : ℕ} (mask : Option (Fin q → Fin n → Bool))
    (mv k eps : ℝ) (clamp : ℝ → ℝ)
    (st : Mat q n × Option (Fin q → ℝ) × Mat q n) :
    Mat q n × Option (Fin q → ℝ) × Mat q n :=
  let s := applyMask mask mv st.1
  let a := fun i => eps * log k - eps * logsumexp (fun j => (s i j + st.2.2 i j) / eps)
  (s, some a, fun i j => -(clamp (s i j + a i)))

/-- `coor_descent` with Python's local-variable semantics made explicit:
the final expression `((s + a + b) / eps).exp()` reads `a`, which is
first assigned inside the loop; with `n_iters = 0` the read fails
(Python raises `UnboundLocalError`), modelled as `none`. -/
noncomputable def coor_descentO {q n : ℕ} (s : Mat q n) (n_iters : ℕ) (k eps : ℝ)
    (clamp : ℝ → ℝ) (mask : Option (Fin q → Fin n → Bool)) (mv : ℝ) :
    Option (Mat q n) :=
  let st := (coorStepO mask mv k eps clamp)^[n_iters]
    (s, none, fun i j => -(clamp (s i j)))
  match st.2.1 with
  | none => none
  | some a =>
      let sF := applyMask mask mv st.1
      some (fun i j => Real.exp ((sF i j + a i + st.2.2 i j) / eps))

/-- The variant of `coor_descent` that omits the re-application of the
mask sentinel after the loop (source lines 43–44 deleted); everything
else is unchanged. -/
noncomputable def coor_descent_noFinalMask {q n : ℕ} (s : Mat q n) (n_iters : ℕ)
    (k eps : ℝ) (clamp : ℝ → ℝ) (mask : Option (Fin q → Fin n → Bool))
    (mv : ℝ) : Mat q n :=
  let st := (coorStep mask mv k eps clamp)^[n_iters] (coorInit clamp s)
  fun i j => Real.exp ((st.s i j + st.a i + st.b i j) / eps)

/-- One solver iteration exactly as the spec words it: "(2) sets
`a = eps*log(k) - eps*logsumexp((scores + b)/eps)` over the key axis
keeping the reduced dimension" — with a plain (unclamped) logarithm of
`k`, recomputed inside the loop each pass. -/
noncomputable def coorStepSpec {q n : ℕ} (mask : Option (Fin q → Fin n → Bool))
    (mv k eps : ℝ) (clamp : ℝ → ℝ) (st : CoorState q n) : CoorState q n :=
  let s := applyMask mask mv st.s
  let a := fun i => eps * Real.log k - eps * logsumexp (fun j => (s i j + st.b i j) / eps)
  { s := s, a := a, b := fun i j => -(clamp (s i j + a i)) }

/-- The solver exactly as the spec words it: initialize
`b = -clamp_fn(scores)`; repeat `n_iters` times the masked update of
`coorStepSpec`; re-apply the mask sentinel once more; return
`exp((scores + a + b)/eps)`. -/
noncomputable def coor_descent_specModel {q n : ℕ} (s : Mat q n) (n_iters : ℕ)
    (k eps : ℝ) (clamp : ℝ → ℝ) (mask : Option (Fin q → Fin n → Bool))
    (mv : ℝ) : Mat q n :=
  let st := (coorStepSpec mask mv k eps clamp)^[n_iters] (coorInit clamp s)
  let sF := applyMask mask mv st.s
  fun i j => Real.exp ((sF i j + st.a i + st.b i j) / eps)

/-- Source line 112: `torch.ones((i, j), dtype = bool).triu(j - i + 1)`.
`triu` with diagonal `d` keeps entry `(r, c)` iff `c - r ≥ d`, so entry
`(qi, kj)` of the causal mask is `true` (disallowed) iff
`kj - qi ≥ j - i + 1` over the integers. -/
def causal_mask (i j : ℕ) (qi : Fin i) (kj : Fin j) : Bool :=
  decide ((j : ℤ) - (i : ℤ) + 1 ≤ (kj : ℤ) - (qi : ℤ))

/-- Row-wise softmax, `x.softmax(dim = -1)` in exact arithmetic. -/
noncomputable def softmaxRows {q n : ℕ} (x : Mat q n) : Mat q n :=
  fun i j => Real.exp (x i j) / ∑ j', Real.exp (x i j')

/-- The `use_coor_descent = False` branch of `Attention.forward`
(source lines 127–129): `sim.masked_fill(causal_mask, -finfo.max)`
followed by `softmax(dim = -1)`. -/
noncomputable def attnWeightsSoftmax {i j : ℕ} (sim : Mat i j) : Mat i j :=
  softmaxRows (fun qi kj => if causal_mask i j qi kj then -float32Max else sim qi kj)

/-- The spec's words for the softmax branch: "the standard softmax of
that row of the similarity matrix after causally-disallowed positions
are filled with the most-negative representable value". -/
noncomputable def softmaxStdOfMaskedRow {i j : ℕ} (sim : Mat i j) (qi : Fin i) :
    Fin j → ℝ :=
  let row := fun kj => if causal_mask i j qi kj then -float32Max else sim qi kj
  fun kj => Real.exp (row kj) / ∑ kj', Real.exp (row kj')

/-- A concrete tensor value, as stored on the host runtime's heap. -/
def Tensor : Type := List (List ℝ)

/-- The value of a query × key matrix as a stored tensor. -/
noncomputable def matToTensor {q n : ℕ} (m : Mat q n) : Tensor :=
  List.ofFn fun i => List.ofFn fun j => m i j

/-- The value of a queries × 1 (keepdim) tensor as a stored tensor. -/
noncomputable def colToTensor {q : ℕ} (v : Fin q → ℝ) : Tensor :=
  List.ofFn fun i => [v i]

/-- The solver loop with tensor allocation made explicit.  Every tensor
operation the source performs — `masked_fill`, the arithmetic producing
`a`, the arithmetic producing `b` — is the out-of-place variant, so it
appends a fresh tensor to the heap; rebinding the Python locals `s`,
`a`, `b` never writes to an existing heap cell. -/
noncomputable def coorLoopAlloc {q n : ℕ} (mask : Option (Fin q → Fin n → Bool))
    (mv k eps : ℝ) (clamp : ℝ → ℝ) :
    ℕ → List Tensor × CoorState q n → List Tensor × CoorState q n
  | 0, hs => hs
  | m + 1, (heap, st) =>
      let s := applyMask mask mv st.s
      let heap1 := match mask with
        | none => heap
        | some _ => heap ++ [matToTensor s]
      let a := fun i => eps * log k - eps * logsumexp (fun j => (s i j + st.b i j) / eps)
      let heap2 := heap1 ++ [colToTensor a]
      let b := fun i j => -(clamp (s i j + a i))
      let heap3 := heap2 ++ [matToTensor b]
      coorLoopAlloc mask mv k eps clamp m (heap3, { s := s, a := a, b := b })

/-- `coor_descent` with tensor allocation made explicit.  `heap` is the
caller-visible heap (the caller's score tensor lives at some index in
it); the solver receives the score values `s` and only ever appends
freshly allocated tensors. -/
noncomputable def coor_descent_alloc {q n : ℕ} (s : Mat q n) (n_iters : ℕ)
    (k eps : ℝ) (clamp : ℝ → ℝ) (mask : Option (Fin q → Fin n → Bool))
    (mv : ℝ) (heap : List Tensor) : List Tensor × Mat q n :=
  let b0 : Mat q n := fun i j => -(clamp (s i j))
  let out := coorLoopAlloc mask mv k eps clamp n_iters
    (heap ++ [matToTensor b0], coorInit clamp s)
  let sF := applyMask mask mv out.2.s
  let heapF := match mask with
    | none => out.1
    | some _ => out.1 ++ [matToTensor sF]
  let scores : Mat q n := fun i j => Real.exp ((sF i j + out.2.a i + out.2.b i j) / eps)
  (heapF ++ [matToTensor scores], scores)

/-- `Transformer.forward` (source lines 186–197).  The learned layers
are abstracted as function parameters; the precondition
`assert n <= self.seq_len` guards the whole body, so the embedding, the
residual layer stack and the logits head run only on the success
branch. -/
def transformerForward (seqLen : ℕ) (tokenEmb posEmb : ℕ → List ℝ)
    (layers : List ((List (List ℝ) → List (List ℝ)) × (List (List ℝ) → List (List ℝ))))
    (toLogits : List (List ℝ) → List (List ℝ)) (x : List ℕ) :
    Except String (List (List ℝ)) :=
  if x.length ≤ seqLen then
    let emb := (List.zipWith (fun t p => List.zipWith (· + ·) t p)
      (x.map tokenEmb) ((List.range x.length).map posEmb))
    let hidden := layers.foldl
      (fun h l =>
        let h1 := List.zipWith (fun u v => List.zipWith (· + ·) u v) (l.1 h) h
        List.zipWith (fun u v => List.zipWith (· + ·) u v) (l.2 h1) h1) emb
    Except.ok (toLogits hidden)
  else
    Except.error "sequence too long"

/-- The claim refuted for C9, as a proposition: there is some masked
input (with at least one iteration) on which dropping the final re-mask
changes the solver's output. -/
def removingFinalMaskChanges : Prop :=
  ∃ (q n : ℕ) (s : Mat q n) (mask : Fin q → Fin n → Bool) (iters : ℕ)
    (k eps mv : ℝ) (clamp : ℝ → ℝ),
    1 ≤ iters ∧
      coor_descent_noFinalMask s iters k eps clamp (some mask) mv ≠
        coor_descent s iters k eps clamp (some mask) mv

/-- The score row of the spec's concrete scenario: `[[1.0, 2.0, 0.0]]`. -/
noncomputable def c6s : Mat 1 3 := fun _ => ![1, 2, 0]

/-- The scalar trajectory governing the solver on `c6s` with `k = 1`,
`eps = 0.1`: after `m` iterations the dual `a` equals `-(0.1 * c6u m)`
(lemma `c6_state`). -/
noncomputable def c6u : ℕ → ℝ
  | 0 => 0
  | m + 1 =>
      Real.log (Real.exp (min 10 (c6u m)) + Real.exp (min 20 (c6u m)) +
        Real.exp (min 0 (c6u m)))

/-- The per-row dual trajectory of the unmasked solver with `k = 1`:
`duals eps row m` is the value of the Python local `a` on this row after
`m` loop iterations (index `0` standing for the pre-loop state, whose
`b = -clamp_fn(scores)` coincides with the dual value `0`). -/
noncomputable def duals {n : ℕ} (eps : ℝ) (row : Fin n → ℝ) : ℕ → ℝ
  | 0 => 0
  | m + 1 => eps * log 1 -
      eps * logsumexp (fun j => (row j + -(relu (row j + duals eps row m))) / eps)

/-- The dual update map of the unmasked `k = 1` solver in closed form:
one iteration sends a row's dual `a` to
`-(eps * log (∑ j, exp (min (row j, -a) / eps)))`. -/
noncomputable def Gmap {n : ℕ} (eps : ℝ) (row : Fin n → ℝ) (a : ℝ) : ℝ :=
  -(eps * Real.log (∑ j, Real.exp (min (row j) (-a) / eps)))

/-- The orbit of the dual update map from an arbitrary starting dual. -/
noncomputable def orbitG {n : ℕ} (eps : ℝ) (row : Fin n → ℝ) (x0 : ℝ) : ℕ → ℝ
  | 0 => x0
  | m + 1 => Gmap eps row (orbitG eps row x0 m)

/-- The dual produced by the first loop iteration of a masked `k = 1`
run: the loop sees the masked scores `rowM`, but the pre-loop
`b = -clamp_fn(scores)` was computed from the raw scores `rowRaw`. -/
noncomputable def a1M {n : ℕ} (eps : ℝ) (rowM rowRaw : Fin n → ℝ) : ℝ :=
  eps * log 1 - eps * logsumexp (fun j => (rowM j + -(relu (rowRaw j))) / eps)

/-! ### General lemmas about the solver -/

theorem maskFill_idem {q n : ℕ} (m : Fin q → Fin n → Bool) (v : ℝ) (s : Mat q n) :
    maskFill m v (maskFill m v s) = maskFill m v s := by
  funext i j
  by_cases h : m i j <;> simp [maskFill, h]

theorem applyMask_idem {q n : ℕ} (mask : Option (Fin q → Fin n → Bool)) (v : ℝ)
    (s : Mat q n) : applyMask mask v (applyMask mask v s) = applyMask mask v s := by
  cases mask with
  | none => rfl
  | some m => exact maskFill_idem m v s

theorem coorStep_s_masked {q n : ℕ} (mask : Option (Fin q → Fin n → Bool))
    (mv k eps : ℝ) (clamp : ℝ → ℝ) (st : CoorState q n) :
    applyMask mask mv (coorStep mask mv k eps clamp st).s =
      (coorStep mask mv k eps clamp st).s := by
  simp only [coorStep]
  exact applyMask_idem mask mv st.s

/-- Shared helper: after at least one iteration the loop-local score
tensor already carries the mask sentinel, so the post-loop re-mask is
the identity and the two variants agree. -/
theorem coor_descent_noFinalMask_eq {q n : ℕ} (s : Mat q n) (iters : ℕ)
    (k eps : ℝ) (clamp : ℝ → ℝ) (mask : Option (Fin q → Fin n → Bool)) (mv : ℝ)
    (h : 1 ≤ iters) :
    coor_descent_noFinalMask s iters k eps clamp mask mv =
      coor_descent s iters k eps clamp mask mv := by
  obtain ⟨m, rfl⟩ : ∃ m, iters = m + 1 := ⟨iters - 1, by omega⟩
  simp only [coor_descent_noFinalMask, coor_descent, Function.iterate_succ_apply']
  rw [coorStep_s_masked]

/-- Shared helper: every entry of the solver output is the exponential
of a real number, hence strictly positive in exact arithmetic. -/
theorem coor_descent_entry_pos {q n : ℕ} (s : Mat q n) (iters : ℕ) (k eps : ℝ)
    (clamp : ℝ → ℝ) (mask : Option (Fin q → Fin n → Bool)) (mv : ℝ)
    (i : Fin q) (j : Fin n) :
    0 < coor_descent s iters k eps clamp mask mv i j :=
  Real.exp_pos _

/-! ### C3: the causal mask -/

/-- C3: the causal mask marks `(qi, kj)` disallowed iff
`kj > qi + (key_len - query_len)`; consequently each query's own
(offset) position is allowed, and every prepended null-key position
(`kj < key_len - query_len`) is allowed, whenever `key_len ≥ query_len`. -/
theorem causal_mask_correct (i j : ℕ) (hij : i ≤ j) (qi : Fin i) (kj : Fin j) :
    (causal_mask i j qi kj = true ↔ (qi : ℤ) + ((j : ℤ) - (i : ℤ)) < (kj : ℤ)) ∧
      causal_mask i j qi ⟨(qi : ℕ) + (j - i), by omega⟩ = false ∧
      ((kj : ℕ) < j - i → causal_mask i j qi kj = false) := by
  refine ⟨?_, ?_, ?_⟩
  · simp only [causal_mask, decide_eq_true_eq]
    omega
  · simp only [causal_mask, decide_eq_false_iff_not]
    push_cast [Nat.cast_sub hij]
    omega
  · intro h
    simp only [causal_mask, decide_eq_false_iff_not]
    omega

/-- Witness for `causal_mask_correct`: query length 2, key length 3
(one null slot), query 1, key 2. -/
theorem causal_mask_correct_witness :
    (causal_mask 2 3 1 2 = true ↔ ((1 : Fin 2) : ℤ) + ((3 : ℤ) - (2 : ℤ)) < ((2 : Fin 3) : ℤ)) ∧
      causal_mask 2 3 1 ⟨((1 : Fin 2) : ℕ) + (3 - 2), by omega⟩ = false ∧
      (((2 : Fin 3) : ℕ) < 3 - 2 → causal_mask 2 3 1 2 = false) :=
  causal_mask_correct 2 3 (by norm_num) 1 2

/-! ### C4: the softmax branch -/

/-- C4: with `use_coor_descent = False`, each attention row sums to `1`
and equals the standard softmax of the causally-masked similarity row,
for any similarity matrix (and hence for every input producing one),
provided the key axis is nonempty. -/
theorem attnWeightsSoftmax_rows (i j : ℕ) (hj : 0 < j) (sim : Mat i j)
    (qi : Fin i) :
    (∑ kj, attnWeightsSoftmax sim qi kj) = 1 ∧
      (fun kj => attnWeightsSoftmax sim qi kj) = softmaxStdOfMaskedRow sim qi := by
  constructor
  · have hpos : 0 < ∑ kj', Real.exp
        (if causal_mask i j qi kj' then -float32Max else sim qi kj') := by
      refine Finset.sum_pos (fun kj' _ => Real.exp_pos _) ?_
      exact ⟨⟨0, hj⟩, Finset.mem_univ _⟩
    simp only [attnWeightsSoftmax, softmaxRows]
    rw [← Finset.sum_div, div_self (ne_of_gt hpos)]
  · rfl

/-- Witness for `attnWeightsSoftmax_rows` at a concrete 1 × 1 input. -/
theorem attnWeightsSoftmax_rows_witness :
    (∑ kj, attnWeightsSoftmax (fun _ _ => (0 : ℝ) : Mat 1 1) 0 kj) = 1 ∧
      (fun kj => attnWeightsSoftmax (fun _ _ => (0 : ℝ) : Mat 1 1) 0 kj) =
        softmaxStdOfMaskedRow (fun _ _ => (0 : ℝ) : Mat 1 1) 0 :=
  attnWeightsSoftmax_rows 1 1 (by norm_num) (fun _ _ => (0 : ℝ)) 0

/-! ### C1: the solver computes exactly the spec's iteration -/

theorem log_eq_of_one_le {k : ℝ} (hk : 1 ≤ k) : log k = Real.log k := by
  unfold log
  rw [max_eq_left ((by norm_num : (1e-20 : ℝ) ≤ 1).trans hk)]

theorem coorStep_eq_spec {q n : ℕ} (mask : Option (Fin q → Fin n → Bool))
    (mv k eps : ℝ) (clamp : ℝ → ℝ) (hk : 1 ≤ k) :
    (coorStep (q := q) (n := n) mask mv k eps clamp) = coorStepSpec mask mv k eps clamp := by
  funext st
  simp only [coorStep, coorStepSpec, log_eq_of_one_le hk]

/-- C1: for every positive `n_iters` and every `k ≥ 1`, `coor_descent`
computes exactly the iteration the spec describes (initialize
`b = -clamp_fn(scores)`; repeat: mask, `a = eps*log(k) -
eps*logsumexp((scores+b)/eps)`, `b = -clamp_fn(scores+a)`; re-mask;
return `exp((scores+a+b)/eps)`): the source model and the spec-worded
model agree (for `k ≥ 1` the source's clamped `log` is the plain
logarithm). -/
theorem coor_descent_eq_specModel {q n : ℕ} (s : Mat q n) (iters : ℕ)
    (k eps : ℝ) (clamp : ℝ → ℝ) (mask : Option (Fin q → Fin n → Bool))
    (mv : ℝ) (hiters : 1 ≤ iters) (hk : 1 ≤ k) :
    coor_descent s iters k eps clamp mask mv =
      coor_descent_specModel s iters k eps clamp mask mv := by
  simp only [coor_descent, coor_descent_specModel, coorStep_eq_spec mask mv k eps clamp hk]

/-- Witness for `coor_descent_eq_specModel` at a concrete input. -/
theorem coor_descent_eq_specModel_witness :
    coor_descent (fun _ _ => (0 : ℝ) : Mat 1 2) 1 1 1 relu none (-float32Max) =
      coor_descent_specModel (fun _ _ => (0 : ℝ) : Mat 1 2) 1 1 1 relu none
        (-float32Max) :=
  coor_descent_eq_specModel (fun _ _ => (0 : ℝ)) 1 1 1 relu none (-float32Max)
    (by norm_num) (by norm_num)

/-! ### C9: the final re-mask is redundant, not output-changing -/

/-- C9 counterexample: the claim "removing the solver's final
re-application of the mask sentinel changes the numerical output on some
boundary mask configuration (with per-iteration masking kept and
`n_iters ≥ 1`)" is false: no such configuration exists, because the
loop's last iteration already applied the identical idempotent
`masked_fill`. -/
theorem no_mask_config_changes_output : ¬ removingFinalMaskChanges := by
  rintro ⟨q, n, s, m, iters, k, eps, mv, clamp, h1, hne⟩
  exact hne (coor_descent_noFinalMask_eq s iters k eps clamp (some m) mv h1)

/-- C9 amended: with per-iteration masking kept and `n_iters ≥ 1`, the
variant without the final re-mask is equal to `coor_descent` on all
inputs — the final re-mask is defensive redundancy that never changes
the output. -/
theorem coor_descent_final_remask_redundant {q n : ℕ} (s : Mat q n) (iters : ℕ)
    (k eps : ℝ) (clamp : ℝ → ℝ) (mask : Option (Fin q → Fin n → Bool))
    (mv : ℝ) (h : 1 ≤ iters) :
    coor_descent_noFinalMask s iters k eps clamp mask mv =
      coor_descent s iters k eps clamp mask mv :=
  coor_descent_noFinalMask_eq s iters k eps clamp mask mv h

/-- Witness for `coor_descent_final_remask_redundant` on a boundary mask
configuration (an all-`false` mask row). -/
theorem coor_descent_final_remask_redundant_witness :
    coor_descent_noFinalMask (fun _ _ => (0 : ℝ) : Mat 1 2) 1 1 1 relu
        (some (fun _ _ => false)) (-float32Max) =
      coor_descent (fun _ _ => (0 : ℝ) : Mat 1 2) 1 1 1 relu
        (some (fun _ _ => false)) (-float32Max) :=
  coor_descent_final_remask_redundant (fun _ _ => (0 : ℝ)) 1 1 1 relu
    (some (fun _ _ => false)) (-float32Max) (by norm_num)

/-! ### C10: `n_iters = 0` leaves `a` unbound -/

theorem coorStepO_toO {q n : ℕ} (mask : Option (Fin q → Fin n → Bool))
    (mv k eps : ℝ) (clamp : ℝ → ℝ) (st : CoorState q n) (o : Option (Fin q → ℝ)) :
    coorStepO mask mv k eps clamp (st.s, o, st.b) =
      ((coorStep mask mv k eps clamp st).s, some (coorStep mask mv k eps clamp st).a,
        (coorStep mask mv k eps clamp st).b) := rfl

theorem coorStepO_iterate {q n : ℕ} (mask : Option (Fin q → Fin n → Bool))
    (mv k eps : ℝ) (clamp : ℝ → ℝ) (s : Mat q n) (m : ℕ) :
    (coorStepO mask mv k eps clamp)^[m + 1] (s, none, fun i j => -(clamp (s i j))) =
      (((coorStep mask mv k eps clamp)^[m + 1] (coorInit clamp s)).s,
        some ((coorStep mask mv k eps clamp)^[m + 1] (coorInit clamp s)).a,
        ((coorStep mask mv k eps clamp)^[m + 1] (coorInit clamp s)).b) := by
  induction m with
  | zero =>
      exact coorStepO_toO mask mv k eps clamp (coorInit clamp s) none
  | succ m ih =>
      rw [Function.iterate_succ_apply', ih,
        coorStepO_toO mask mv k eps clamp
          ((coorStep mask mv k eps clamp)^[m + 1] (coorInit clamp s)),
        Function.iterate_succ_apply' (coorStep mask mv k eps clamp) (m + 1)
          (coorInit clamp s)]

/-- C10: `coor_descent` produces a weight matrix only for `n_iters ≥ 1`.
In the Option-valued model that tracks the Python local `a` (first
assigned inside the loop, read by the final expression), `n_iters = 0`
yields no value — the source raises `UnboundLocalError` — while every
`n_iters ≥ 1` yields exactly the total model's output. -/
theorem coor_descentO_cases {q n : ℕ} (s : Mat q n) (k eps : ℝ)
    (clamp : ℝ → ℝ) (mask : Option (Fin q → Fin n → Bool)) (mv : ℝ) :
    coor_descentO s 0 k eps clamp mask mv = none ∧
      ∀ iters, 1 ≤ iters →
        coor_descentO s iters k eps clamp mask mv =
          some (coor_descent s iters k eps clamp mask mv) := by
  refine ⟨rfl, ?_⟩
  intro iters h
  obtain ⟨m, rfl⟩ : ∃ m, iters = m + 1 := ⟨iters - 1, by omega⟩
  simp only [coor_descentO, coor_descent,
    coorStepO_iterate mask mv k eps clamp s m]

/-- Witness for `coor_descentO_cases` at a concrete input. -/
theorem coor_descentO_cases_witness :
    coor_descentO (fun _ _ => (0 : ℝ) : Mat 1 1) 1 1 1 relu none (-float32Max) =
      some (coor_descent (fun _ _ => (0 : ℝ) : Mat 1 1) 1 1 1 relu none
        (-float32Max)) :=
  (coor_descentO_cases (fun _ _ => (0 : ℝ) : Mat 1 1) 1 1 relu none
    (-float32Max)).2 1 (by norm_num)

/-! ### C7: the sequence-length precondition -/

/-- C7: `Transformer.forward` fails fast on over-long inputs — for any
learned parameters (so before and independently of any embedding or
layer computation) an input longer than `seq_len` produces the
precondition failure, and any input of length at most `seq_len`
produces a logits value. -/
theorem transformerForward_guard (seqLen : ℕ) (tokenEmb posEmb : ℕ → List ℝ)
    (layers : List ((List (List ℝ) → List (List ℝ)) × (List (List ℝ) → List (List ℝ))))
    (toLogits : List (List ℝ) → List (List ℝ)) (x : List ℕ) :
    (seqLen < x.length →
        transformerForward seqLen tokenEmb posEmb layers toLogits x =
          Except.error "sequence too long") ∧
      (x.length ≤ seqLen →
        ∃ y, transformerForward seqLen tokenEmb posEmb layers toLogits x =
          Except.ok y) := by
  constructor
  · intro h
    simp only [transformerForward, if_neg (by omega : ¬ x.length ≤ seqLen)]
  · intro h
    unfold transformerForward
    rw [if_pos h]
    exact ⟨_, rfl⟩

/-- Witness for `transformerForward_guard`: a length-2 input against
`seq_len = 1` fails with the precondition error. -/
theorem transformerForward_guard_witness :
    transformerForward 1 (fun _ => []) (fun _ => []) [] id [0, 0] =
      Except.error "sequence too long" :=
  (transformerForward_guard 1 (fun _ => []) (fun _ => []) [] id [0, 0]).1
    (by norm_num)

/-! ### C8: the solver never mutates the caller's tensor -/

theorem coorLoopAlloc_heap_extend {q n : ℕ} (mask : Option (Fin q → Fin n → Bool))
    (mv k eps : ℝ) (clamp : ℝ → ℝ) (m : ℕ) :
    ∀ (heap : List Tensor) (st : CoorState q n),
      ∃ ext, (coorLoopAlloc mask mv k eps clamp m (heap, st)).1 = heap ++ ext := by
  induction m with
  | zero => exact fun heap st => ⟨[], by simp [coorLoopAlloc]⟩
  | succ m ih =>
      intro heap st
      cases mask with
      | none =>
          obtain ⟨ext, hext⟩ := ih _ _
          exact ⟨_, by rw [coorLoopAlloc, hext, List.append_assoc, List.append_assoc]⟩
      | some msk =>
          obtain ⟨ext, hext⟩ := ih _ _
          exact ⟨_, by
            rw [coorLoopAlloc, hext, List.append_assoc, List.append_assoc,
              List.append_assoc]⟩

theorem coorLoopAlloc_state {q n : ℕ} (mask : Option (Fin q → Fin n → Bool))
    (mv k eps : ℝ) (clamp : ℝ → ℝ) (m : ℕ) :
    ∀ (heap : List Tensor) (st : CoorState q n),
      (coorLoopAlloc mask mv k eps clamp m (heap, st)).2 =
        (coorStep mask mv k eps clamp)^[m] st := by
  induction m with
  | zero => intro heap st; rfl
  | succ m ih =>
      intro heap st
      rw [Function.iterate_succ_apply]
      cases mask with
      | none => exact ih _ _
      | some msk => exact ih _ _

/-- C8: `coor_descent` never mutates the caller's score tensor.  In the
allocation model — where every tensor operation the source performs is
the out-of-place variant, appending a fresh tensor to the heap — the
whole caller-visible heap (in particular the caller's score tensor at
whatever index it occupies) is preserved verbatim as a prefix of the
final heap, and the returned weights are exactly the pure solver's. -/
theorem coor_descent_alloc_frame {q n : ℕ} (s : Mat q n) (iters : ℕ)
    (k eps : ℝ) (clamp : ℝ → ℝ) (mask : Option (Fin q → Fin n → Bool))
    (mv : ℝ) (heap : List Tensor) :
    ((coor_descent_alloc s iters k eps clamp mask mv heap).1).take heap.length =
        heap ∧
      (coor_descent_alloc s iters k eps clamp mask mv heap).2 =
        coor_descent s iters k eps clamp mask mv := by
  constructor
  · obtain ⟨ext, hext⟩ := coorLoopAlloc_heap_extend mask mv k eps clamp iters
      (heap ++ [matToTensor (fun i j => -(clamp (s i j)))]) (coorInit clamp s)
    cases mask with
    | none =>
        simp only [coor_descent_alloc, hext, List.append_assoc]
        exact List.take_left heap _
    | some msk =>
        simp only [coor_descent_alloc, hext, List.append_assoc]
        exact List.take_left heap _
  · simp only [coor_descent_alloc, coor_descent,
      coorLoopAlloc_state mask mv k eps clamp iters]

/-! ### C6: concentration on the max-scoring key for the spec's
concrete scenario -/

theorem log_one_eq : log 1 = 0 := by
  rw [log_eq_of_one_le le_rfl, Real.log_one]

theorem applyMask_allTrue {q n : ℕ} (v : ℝ) (s : Mat q n) :
    applyMask (some fun _ _ => true) v s = s := by
  funext i j
  simp [applyMask, maskFill]

theorem sub_relu_min (x c : ℝ) : x - relu (x - c) = min x c := by
  rcases le_total x c with h | h
  · rw [relu, max_eq_right (by linarith), sub_zero, min_eq_left h]
  · rw [relu, max_eq_left (by linarith), min_eq_right h]
    ring

theorem c6u_nonneg : ∀ m, 0 ≤ c6u m := by
  intro m
  cases m with
  | zero => exact le_refl 0
  | succ m =>
      have h0 : 0 ≤ c6u m := c6u_nonneg m
      show 0 ≤ Real.log _
      refine Real.log_nonneg ?_
      have h1 : Real.exp (min 0 (c6u m)) = 1 := by
        rw [min_eq_left h0, Real.exp_zero]
      have h2 := Real.exp_pos (min 10 (c6u m))
      have h3 := Real.exp_pos (min 20 (c6u m))
      linarith

theorem c6_state (m : ℕ) :
    (coorStep (some fun _ _ => true) (-float32Max) 1 (0.1 : ℝ) relu)^[m]
        (coorInit relu c6s) =
      { s := c6s,
        a := fun _ => -((0.1 : ℝ) * c6u m),
        b := fun i j => -(relu (c6s i j - (0.1 : ℝ) * c6u m)) } := by
  induction m with
  | zero =>
      simp only [Function.iterate_zero, id_eq, coorInit, c6u]
      congr 1
      · funext i
        norm_num
      · funext i j
        norm_num
  | succ m ih =>
      rw [Function.iterate_succ_apply', ih]
      have haux : ∀ i : Fin 1,
          (0.1 : ℝ) * log 1 - 0.1 * logsumexp
            (fun j => (c6s i j + -(relu (c6s i j - 0.1 * c6u m))) / 0.1) =
          -((0.1 : ℝ) * c6u (m + 1)) := by
        intro i
        have hterm : ∀ j : Fin 3,
            (c6s i j + -(relu (c6s i j - 0.1 * c6u m))) / 0.1 =
              min (c6s i j / 0.1) (c6u m) := by
          intro j
          rw [← sub_eq_add_neg, sub_relu_min, ← min_div_div_right (by norm_num : (0:ℝ) ≤ 0.1)]
          congr 1
          rw [mul_comm, mul_div_assoc]
          norm_num
        have hlse : logsumexp
            (fun j => (c6s i j + -(relu (c6s i j - 0.1 * c6u m))) / 0.1) =
            c6u (m + 1) := by
          unfold logsumexp
          rw [Fin.sum_univ_three]
          simp only [hterm]
          have e0 : c6s i 0 / (0.1 : ℝ) = 10 := by norm_num [c6s]
          have e1 : c6s i 1 / (0.1 : ℝ) = 20 := by norm_num [c6s]
          have e2 : c6s i 2 / (0.1 : ℝ) = 0 := by norm_num [c6s]
          rw [e0, e1, e2]
          rfl
        rw [hlse, log_one_eq]
        ring
      simp only [coorStep, applyMask_allTrue]
      congr 1
      · funext i
        exact haux i
      · funext i j
        rw [haux i, ← sub_eq_add_neg]

theorem exp_ten_large : (1024 : ℝ) ≤ Real.exp 10 := by
  have h : Real.exp 10 = Real.exp 1 ^ (10 : ℕ) := by
    rw [← Real.exp_nat_mul]
    norm_num
  have h2 : (2 : ℝ) ^ (10 : ℕ) ≤ Real.exp 1 ^ (10 : ℕ) := by
    refine pow_le_pow_left₀ (by norm_num) ?_ 10
    have := Real.exp_one_gt_d9
    linarith
  rw [h]
  norm_num at h2
  linarith

/-- Growth phase one: while the trajectory is below `10` it gains at
least `log 2` per iteration. -/
theorem c6u_lb1 : ∀ m : ℕ, min 10 ((m : ℝ) * Real.log 2) ≤ c6u m := by
  intro m
  induction m with
  | zero =>
      simp [c6u]
  | succ m ih =>
      have hpos1 := Real.exp_pos (min 10 (c6u m))
      have hpos2 := Real.exp_pos (min 20 (c6u m))
      have hpos3 := Real.exp_pos (min 0 (c6u m))
      rcases le_or_lt 10 (c6u m) with h10 | h10
      · have hsum : Real.exp 10 ≤
            Real.exp (min 10 (c6u m)) + Real.exp (min 20 (c6u m)) +
              Real.exp (min 0 (c6u m)) := by
          rw [min_eq_left h10]
          linarith
        have hlog : (10 : ℝ) ≤ c6u (m + 1) := by
          have := (Real.log_le_log_iff (Real.exp_pos 10) (by linarith)).2 hsum
          rwa [Real.log_exp] at this
        exact le_trans (min_le_left _ _) hlog
      · have hm2 : (m : ℝ) * Real.log 2 ≤ c6u m := by
          rcases le_or_lt ((m : ℝ) * Real.log 2) 10 with hle | hgt
          · rwa [min_eq_right hle] at ih
          · rw [min_eq_left (le_of_lt hgt)] at ih
            linarith
        have h0 : 0 ≤ c6u m := c6u_nonneg m
        have hrw : c6u (m + 1) =
            Real.log (Real.exp (c6u m) + Real.exp (c6u m) + 1) := by
          show Real.log _ = _
          rw [min_eq_right (le_of_lt h10),
            min_eq_right (by linarith : c6u m ≤ 20), min_eq_left h0,
            Real.exp_zero]
        have hstep : Real.log 2 + c6u m ≤ c6u (m + 1) := by
          rw [hrw]
          have h2e : (2 : ℝ) * Real.exp (c6u m) ≤
              Real.exp (c6u m) + Real.exp (c6u m) + 1 := by
            have := Real.exp_pos (c6u m)
            linarith
          have := (Real.log_le_log_iff
            (by positivity) (by positivity)).2 h2e
          rwa [Real.log_mul (by norm_num) (Real.exp_ne_zero _),
            Real.log_exp] at this
        have : ((m : ℝ) + 1) * Real.log 2 ≤ c6u (m + 1) := by
          nlinarith [Real.log_two_gt_d9]
        refine le_trans (min_le_right _ _) ?_
        push_cast
        exact this

/-- Growth phase two: once past `10`, after `m` further iterations the
trajectory is at least `10 + log (m + 1)`. -/
theorem c6u_lb2 : ∀ m : ℕ, m ≤ 35 → 10 + Real.log ((m : ℝ) + 1) ≤ c6u (15 + m) := by
  intro m
  induction m with
  | zero =>
      intro _
      have h15 : (10 : ℝ) ≤ c6u 15 := by
        have h := c6u_lb1 15
        push_cast at h
        have hlog2 : (10 : ℝ) ≤ (15 : ℝ) * Real.log 2 := by
          nlinarith [Real.log_two_gt_d9]
        rwa [min_eq_left hlog2] at h
      norm_num
      exact h15
  | succ m ih =>
      intro hm
      have ihm := ih (by omega)
      have hu10 : (10 : ℝ) ≤ c6u (15 + m) := by
        have := Real.log_nonneg (by push_cast; linarith : (1 : ℝ) ≤ (m : ℝ) + 1)
        linarith
      have hkey : Real.exp 10 * ((m : ℝ) + 1) ≤ Real.exp (min 20 (c6u (15 + m))) := by
        rcases le_or_lt (c6u (15 + m)) 20 with h20 | h20
        · rw [min_eq_right h20]
          have : Real.exp (10 + Real.log ((m : ℝ) + 1)) ≤ Real.exp (c6u (15 + m)) :=
            Real.exp_le_exp.2 ihm
          rwa [Real.exp_add, Real.exp_log (by push_cast; linarith)] at this
        · rw [min_eq_left (le_of_lt h20)]
          have hm36 : ((m : ℝ) + 1) ≤ 1024 := by
            have hmn : (m : ℝ) ≤ 35 := by exact_mod_cast (by omega : m ≤ 35)
            linarith
          have h1024 := exp_ten_large
          have hsplit : Real.exp 20 = Real.exp 10 * Real.exp 10 := by
            rw [← Real.exp_add]
            norm_num
          rw [hsplit]
          have hpos : (0 : ℝ) < Real.exp 10 := Real.exp_pos 10
          nlinarith
      have hsum : Real.exp 10 * ((m : ℝ) + 2) ≤
          Real.exp (min 10 (c6u (15 + m))) + Real.exp (min 20 (c6u (15 + m))) +
            Real.exp (min 0 (c6u (15 + m))) := by
        rw [min_eq_left hu10]
        have := Real.exp_pos (min 0 (c6u (15 + m)))
        nlinarith [Real.exp_pos (10 : ℝ)]
      have hnext : c6u (15 + (m + 1)) =
          Real.log (Real.exp (min 10 (c6u (15 + m))) + Real.exp (min 20 (c6u (15 + m))) +
            Real.exp (min 0 (c6u (15 + m)))) := by
        show c6u ((15 + m) + 1) = _
        rfl
      have hfinal : Real.log (Real.exp 10 * ((m : ℝ) + 2)) ≤ c6u (15 + (m + 1)) := by
        rw [hnext]
        refine (Real.log_le_log_iff ?_ ?_).2 hsum
        · positivity
        · positivity
      rw [Real.log_mul (Real.exp_ne_zero _) (by push_cast; linarith), Real.log_exp] at hfinal
      push_cast
      rw [show ((m : ℝ) + 1 + 1) = (m : ℝ) + 2 by ring]
      exact hfinal

/-- Upper bound on the trajectory. -/
theorem c6u_ub : ∀ m : ℕ, c6u m ≤ 10 + Real.log (2 * (m : ℝ) + 1) := by
  intro m
  induction m with
  | zero =>
      norm_num [c6u]
  | succ m ih =>
      have hB : (0 : ℝ) < 2 * (m : ℝ) + 1 := by positivity
      have h1 : Real.exp (min 10 (c6u m)) ≤ Real.exp 10 :=
        Real.exp_le_exp.2 (min_le_left _ _)
      have h2 : Real.exp (min 20 (c6u m)) ≤ Real.exp 10 * (2 * (m : ℝ) + 1) := by
        have hle : min 20 (c6u m) ≤ 10 + Real.log (2 * (m : ℝ) + 1) :=
          le_trans (min_le_right _ _) ih
        have := Real.exp_le_exp.2 hle
        rwa [Real.exp_add, Real.exp_log hB] at this
      have h3 : Real.exp (min 0 (c6u m)) ≤ Real.exp 10 := by
        refine Real.exp_le_exp.2 (le_trans (min_le_left _ _) (by norm_num))
      have hsum : Real.exp (min 10 (c6u m)) + Real.exp (min 20 (c6u m)) +
          Real.exp (min 0 (c6u m)) ≤ Real.exp 10 * (2 * ((m : ℝ) + 1) + 1) := by
        nlinarith
      have hlog : c6u (m + 1) ≤ Real.log (Real.exp 10 * (2 * ((m : ℝ) + 1) + 1)) := by
        show Real.log _ ≤ _
        refine (Real.log_le_log_iff ?_ ?_).2 hsum
        · positivity
        · positivity
      rw [Real.log_mul (Real.exp_ne_zero _) (by positivity), Real.log_exp] at hlog
      push_cast
      linarith

/-- C6: on the spec's concrete scenario — scores `[[1, 2, 0]]`,
all-true mask, `k = 1`, `eps = 0.1`, `n_iters = 50` — the solver places
more than `0.9` of the row's total mass on index `1`, the max-scoring
key. -/
theorem c6_top1_mass :
    (9 : ℝ) / 10 *
        (∑ j, coor_descent c6s 50 1 (0.1 : ℝ) relu (some fun _ _ => true)
          (-float32Max) 0 j) <
      coor_descent c6s 50 1 (0.1 : ℝ) relu (some fun _ _ => true)
        (-float32Max) 0 1 := by
  have hL : 10 + Real.log 36 ≤ c6u 50 := by
    have h := c6u_lb2 35 le_rfl
    norm_num at h
    exact h
  have hU : c6u 50 ≤ 10 + Real.log 101 := by
    have h := c6u_ub 50
    norm_num at h
    exact h
  have h20 : c6u 50 ≤ 20 := by
    have hlog101 : Real.log 101 ≤ 10 := by
      rw [Real.log_le_iff_le_exp (by norm_num)]
      calc (101 : ℝ) ≤ 1024 := by norm_num
        _ ≤ Real.exp 10 := exp_ten_large
    linarith
  have hlog36 : (0 : ℝ) ≤ Real.log 36 := Real.log_nonneg (by norm_num)
  have hcd : coor_descent c6s 50 1 (0.1 : ℝ) relu (some fun _ _ => true)
      (-float32Max) = fun i j => Real.exp (min (c6s i j / 0.1 - c6u 50) 0) := by
    funext i j
    simp only [coor_descent, c6_state 50, applyMask_allTrue]
    congr 1
    have key := sub_relu_min (c6s i j - 0.1 * c6u 50) 0
    rw [sub_zero] at key
    have harith : c6s i j + -(0.1 * c6u 50) + -(relu (c6s i j - 0.1 * c6u 50)) =
        min (c6s i j - 0.1 * c6u 50) 0 := by
      rw [← key]
      ring
    rw [harith, ← min_div_div_right (by norm_num : (0 : ℝ) ≤ 0.1)]
    congr 1
    · rw [sub_div]
      congr 1
      rw [mul_comm, mul_div_assoc]
      norm_num
    · norm_num
  have hw1 : coor_descent c6s 50 1 (0.1 : ℝ) relu (some fun _ _ => true)
      (-float32Max) 0 1 = 1 := by
    simp only [hcd]
    have hv : c6s 0 1 / (0.1 : ℝ) = 20 := by norm_num [c6s]
    rw [hv, min_eq_right (by linarith : (0 : ℝ) ≤ 20 - c6u 50)]
    exact Real.exp_zero
  have hw0 : coor_descent c6s 50 1 (0.1 : ℝ) relu (some fun _ _ => true)
      (-float32Max) 0 0 ≤ (36 : ℝ)⁻¹ := by
    simp only [hcd]
    have hv : c6s 0 0 / (0.1 : ℝ) = 10 := by norm_num [c6s]
    rw [hv]
    calc Real.exp (min (10 - c6u 50) 0) ≤ Real.exp (10 - c6u 50) :=
          Real.exp_le_exp.2 (min_le_left _ _)
      _ ≤ Real.exp (-Real.log 36) := Real.exp_le_exp.2 (by linarith)
      _ = (36 : ℝ)⁻¹ := by rw [Real.exp_neg, Real.exp_log (by norm_num)]
  have hw2 : coor_descent c6s 50 1 (0.1 : ℝ) relu (some fun _ _ => true)
      (-float32Max) 0 2 ≤ (36 : ℝ)⁻¹ := by
    simp only [hcd]
    have hv : c6s 0 2 / (0.1 : ℝ) = 0 := by norm_num [c6s]
    rw [hv]
    calc Real.exp (min (0 - c6u 50) 0) ≤ Real.exp (0 - c6u 50) :=
          Real.exp_le_exp.2 (min_le_left _ _)
      _ ≤ Real.exp (-Real.log 36) := Real.exp_le_exp.2 (by linarith)
      _ = (36 : ℝ)⁻¹ := by rw [Real.exp_neg, Real.exp_log (by norm_num)]
  rw [Fin.sum_univ_three, hw1]
  linarith

/-! ### C5: convergence of the row mass -/

theorem maskFill_allTrue {q n : ℕ} (v : ℝ) (s : Mat q n) :
    maskFill (fun _ _ => true) v s = s := by
  funext i j
  simp [maskFill]

theorem coorStep_allTrue_eq_none {q n : ℕ} (mv k eps : ℝ) (clamp : ℝ → ℝ) :
    coorStep (q := q) (n := n) (some fun _ _ => true) mv k eps clamp =
      coorStep none mv k eps clamp := by
  funext st
  simp only [coorStep, applyMask, maskFill_allTrue]

theorem coor_descent_allTrue {q n : ℕ} (s : Mat q n) (iters : ℕ) (k eps : ℝ)
    (clamp : ℝ → ℝ) (mv : ℝ) :
    coor_descent s iters k eps clamp (some fun _ _ => true) mv =
      coor_descent s iters k eps clamp none mv := by
  simp only [coor_descent, coorStep_allTrue_eq_none, applyMask, maskFill_allTrue]

theorem coorStep_none_iterate {q n : ℕ} (mv eps : ℝ) (s : Mat q n) (m : ℕ) :
    (coorStep none mv 1 eps relu)^[m] (coorInit relu s) =
      { s := s, a := fun i => duals eps (s i) m,
        b := fun i j => -(relu (s i j + duals eps (s i) m)) } := by
  induction m with
  | zero =>
      simp only [Function.iterate_zero, id_eq, coorInit, CoorState.mk.injEq]
      refine ⟨trivial, ?_, ?_⟩
      · funext i
        simp [duals]
      · funext i j
        simp [duals]
  | succ m ih =>
      rw [Function.iterate_succ_apply', ih]
      simp only [coorStep, applyMask]
      congr 1

theorem duals_succ_G {n : ℕ} (eps : ℝ) (row : Fin n → ℝ) (m : ℕ) :
    duals eps row (m + 1) = Gmap eps row (duals eps row m) := by
  have hterm : ∀ (d : ℝ) (j : Fin n),
      row j + -(relu (row j + d)) = min (row j) (-d) := by
    intro d j
    have h := sub_relu_min (row j) (-d)
    rw [sub_neg_eq_add] at h
    linarith
  show eps * log 1 -
      eps * logsumexp (fun j => (row j + -(relu (row j + duals eps row m))) / eps) =
    Gmap eps row (duals eps row m)
  simp only [log_one_eq, mul_zero, zero_sub, Gmap, logsumexp, hterm]

theorem gsum_pos {n : ℕ} (hn : 0 < n) (eps : ℝ) (row : Fin n → ℝ) (z : ℝ) :
    0 < ∑ j, Real.exp (min (row j) (-z) / eps) :=
  Finset.sum_pos (fun j _ => Real.exp_pos _) ⟨⟨0, hn⟩, Finset.mem_univ _⟩

theorem Gmap_mono {n : ℕ} {eps : ℝ} (heps : 0 < eps) (hn : 0 < n)
    (row : Fin n → ℝ) {x y : ℝ} (hxy : x ≤ y) :
    Gmap eps row x ≤ Gmap eps row y := by
  have hle : ∑ j, Real.exp (min (row j) (-y) / eps) ≤
      ∑ j, Real.exp (min (row j) (-x) / eps) := by
    refine Finset.sum_le_sum fun j _ => ?_
    refine Real.exp_le_exp.2 ((div_le_div_iff_of_pos_right heps).2 ?_)
    exact min_le_min le_rfl (neg_le_neg hxy)
  have hlog := (Real.log_le_log_iff (gsum_pos hn eps row y) (gsum_pos hn eps row x)).2 hle
  have := mul_le_mul_of_nonneg_left hlog (le_of_lt heps)
  unfold Gmap
  linarith

theorem Gmap_lip {n : ℕ} {eps : ℝ} (heps : 0 < eps) (hn : 0 < n)
    (row : Fin n → ℝ) {x y : ℝ} (hxy : x ≤ y) :
    Gmap eps row y - Gmap eps row x ≤ y - x := by
  have hterm : ∀ j : Fin n,
      Real.exp (-(y - x) / eps) * Real.exp (min (row j) (-x) / eps) ≤
        Real.exp (min (row j) (-y) / eps) := by
    intro j
    rw [← Real.exp_add, div_add_div_same]
    refine Real.exp_le_exp.2 ((div_le_div_iff_of_pos_right heps).2 ?_)
    have h1 : min (row j) (-x) - (y - x) =
        min (row j - (y - x)) (-x - (y - x)) := (min_sub_sub_right _ _ _).symm
    have h2 : min (row j - (y - x)) (-x - (y - x)) ≤ min (row j) (-y) :=
      min_le_min (by linarith) (le_of_eq (by ring))
    linarith
  have hsumy : Real.exp (-(y - x) / eps) * (∑ j, Real.exp (min (row j) (-x) / eps)) ≤
      ∑ j, Real.exp (min (row j) (-y) / eps) := by
    rw [Finset.mul_sum]
    exact Finset.sum_le_sum fun j _ => hterm j
  have hlog := (Real.log_le_log_iff
    (mul_pos (Real.exp_pos _) (gsum_pos hn eps row x)) (gsum_pos hn eps row y)).2 hsumy
  rw [Real.log_mul (Real.exp_ne_zero _) (ne_of_gt (gsum_pos hn eps row x)),
    Real.log_exp] at hlog
  have hmul := mul_le_mul_of_nonneg_left hlog (le_of_lt heps)
  rw [mul_add, mul_comm eps (-(y - x) / eps), div_mul_cancel₀ _ (ne_of_gt heps)] at hmul
  unfold Gmap
  linarith

theorem Gmap_le {n : ℕ} {eps : ℝ} (heps : 0 < eps) (j0 : Fin n)
    (row : Fin n → ℝ) (a : ℝ) :
    Gmap eps row a ≤ max (-(row j0)) a := by
  have hn : 0 < n := j0.pos
  have h1 : Real.exp (min (row j0) (-a) / eps) ≤
      ∑ j, Real.exp (min (row j) (-a) / eps) :=
    @Finset.single_le_sum (Fin n) ℝ _ (fun j => Real.exp (min (row j) (-a) / eps))
      Finset.univ (fun j _ => le_of_lt (Real.exp_pos _)) j0 (Finset.mem_univ _)
  have hlog := (Real.log_le_log_iff (Real.exp_pos _) (gsum_pos hn eps row a)).2 h1
  rw [Real.log_exp] at hlog
  have hmul := mul_le_mul_of_nonneg_left hlog (le_of_lt heps)
  rw [mul_comm eps (min (row j0) (-a) / eps),
    div_mul_cancel₀ _ (ne_of_gt heps)] at hmul
  have hneg : -min (row j0) (-a) = max (-(row j0)) a := by
    rw [← neg_neg a, max_neg_neg, neg_neg]
  unfold Gmap
  linarith

theorem Gmap_ge {n : ℕ} {eps : ℝ} (heps : 0 < eps) (hn : 0 < n)
    (row : Fin n → ℝ) (a : ℝ) :
    -(eps * Real.log (∑ j, Real.exp (row j / eps))) ≤ Gmap eps row a := by
  have hle : ∑ j, Real.exp (min (row j) (-a) / eps) ≤
      ∑ j, Real.exp (row j / eps) := by
    refine Finset.sum_le_sum fun j _ => ?_
    exact Real.exp_le_exp.2 ((div_le_div_iff_of_pos_right heps).2 (min_le_left _ _))
  have hpos : 0 < ∑ j, Real.exp (row j / eps) :=
    Finset.sum_pos (fun j _ => Real.exp_pos _) ⟨⟨0, hn⟩, Finset.mem_univ _⟩
  have hlog := (Real.log_le_log_iff (gsum_pos hn eps row a) hpos).2 hle
  have := mul_le_mul_of_nonneg_left hlog (le_of_lt heps)
  unfold Gmap
  linarith

theorem duals_step_up {n : ℕ} {eps : ℝ} (heps : 0 < eps) (hn : 0 < n)
    (row : Fin n → ℝ) (h01 : duals eps row 0 ≤ duals eps row 1) :
    ∀ m, duals eps row m ≤ duals eps row (m + 1) := by
  intro m
  induction m with
  | zero => exact h01
  | succ m ih =>
      calc duals eps row (m + 1) = Gmap eps row (duals eps row m) :=
            duals_succ_G eps row m
        _ ≤ Gmap eps row (duals eps row (m + 1)) := Gmap_mono heps hn row ih
        _ = duals eps row (m + 1 + 1) := (duals_succ_G eps row (m + 1)).symm

theorem duals_step_down {n : ℕ} {eps : ℝ} (heps : 0 < eps) (hn : 0 < n)
    (row : Fin n → ℝ) (h01 : duals eps row 1 ≤ duals eps row 0) :
    ∀ m, duals eps row (m + 1) ≤ duals eps row m := by
  intro m
  induction m with
  | zero => exact h01
  | succ m ih =>
      calc duals eps row (m + 1 + 1) = Gmap eps row (duals eps row (m + 1)) :=
            duals_succ_G eps row (m + 1)
        _ ≤ Gmap eps row (duals eps row m) := Gmap_mono heps hn row ih
        _ = duals eps row (m + 1) := (duals_succ_G eps row m).symm

theorem duals_le {n : ℕ} {eps : ℝ} (heps : 0 < eps) (hn : 0 < n)
    (row : Fin n → ℝ) : ∀ m, duals eps row m ≤ max (-(row ⟨0, hn⟩)) 0 := by
  intro m
  induction m with
  | zero =>
      show (0 : ℝ) ≤ _
      exact le_max_right _ _
  | succ m ih =>
      rw [duals_succ_G eps row m]
      calc Gmap eps row (duals eps row m) ≤ max (-(row ⟨0, hn⟩)) (duals eps row m) :=
            Gmap_le heps ⟨0, hn⟩ row _
        _ ≤ max (-(row ⟨0, hn⟩)) (max (-(row ⟨0, hn⟩)) 0) := max_le_max le_rfl ih
        _ = max (-(row ⟨0, hn⟩)) 0 := by rw [← max_assoc, max_self]

theorem duals_ge {n : ℕ} {eps : ℝ} (heps : 0 < eps) (hn : 0 < n)
    (row : Fin n → ℝ) :
    ∀ m, min (-(eps * Real.log (∑ j, Real.exp (row j / eps)))) 0 ≤ duals eps row m := by
  intro m
  cases m with
  | zero =>
      show _ ≤ (0 : ℝ)
      exact min_le_right _ _
  | succ m =>
      rw [duals_succ_G eps row m]
      exact le_trans (min_le_left _ _) (Gmap_ge heps hn row _)

/-- The row mass of the unmasked `k = 1` solver output after `m`
iterations is `exp((a_m - a_{m+1}) / eps)`. -/
theorem rowMass_eq {q n : ℕ} (s : Mat q n) (eps : ℝ) (heps : 0 < eps)
    (hn : 0 < n) (mv : ℝ) (i : Fin q) (m : ℕ) :
    ∑ j, coor_descent s m 1 eps relu none mv i j =
      Real.exp ((duals eps (s i) m - duals eps (s i) (m + 1)) / eps) := by
  have hout : ∀ j, coor_descent s m 1 eps relu none mv i j =
      Real.exp (min (s i j) (-(duals eps (s i) m)) / eps) *
        Real.exp (duals eps (s i) m / eps) := by
    intro j
    simp only [coor_descent, coorStep_none_iterate mv eps s m, applyMask]
    rw [← Real.exp_add, div_add_div_same]
    congr 1
    have h := sub_relu_min (s i j) (-(duals eps (s i) m))
    rw [sub_neg_eq_add] at h
    congr 1
    linarith
  have hsum : ∑ j, coor_descent s m 1 eps relu none mv i j =
      (∑ j, Real.exp (min (s i j) (-(duals eps (s i) m)) / eps)) *
        Real.exp (duals eps (s i) m / eps) := by
    rw [Finset.sum_mul]
    exact Finset.sum_congr rfl fun j _ => hout j
  have hG := duals_succ_G eps (s i) m
  rw [Gmap] at hG
  have hSig : ∑ j, Real.exp (min (s i j) (-(duals eps (s i) m)) / eps) =
      Real.exp (-(duals eps (s i) (m + 1)) / eps) := by
    rw [hG, neg_neg,
      mul_comm eps (Real.log (∑ j, Real.exp (min (s i j) (-(duals eps (s i) m)) / eps))),
      mul_div_assoc, div_self (ne_of_gt heps), mul_one]
    exact (Real.exp_log (gsum_pos hn eps (s i) _)).symm
  rw [hsum, hSig, ← Real.exp_add]
  congr 1
  rw [div_add_div_same, neg_add_eq_sub]

theorem Gmap_eq_step_form {n : ℕ} (eps : ℝ) (row : Fin n → ℝ) (x : ℝ) :
    eps * log 1 - eps * logsumexp (fun j => (row j + -(relu (row j + x))) / eps) =
      Gmap eps row x := by
  have hterm : ∀ j : Fin n, row j + -(relu (row j + x)) = min (row j) (-x) := by
    intro j
    have h := sub_relu_min (row j) (-x)
    rw [sub_neg_eq_add] at h
    linarith
  simp only [log_one_eq, mul_zero, zero_sub, Gmap, logsumexp, hterm]

theorem orbitG_succ {n : ℕ} (eps : ℝ) (row : Fin n → ℝ) (x0 : ℝ) (m : ℕ) :
    orbitG eps row x0 (m + 1) = Gmap eps row (orbitG eps row x0 m) := rfl

theorem orbitG_step_up {n : ℕ} {eps : ℝ} (heps : 0 < eps) (hn : 0 < n)
    (row : Fin n → ℝ) (x0 : ℝ) (h01 : x0 ≤ orbitG eps row x0 1) :
    ∀ m, orbitG eps row x0 m ≤ orbitG eps row x0 (m + 1) := by
  intro m
  induction m with
  | zero => exact h01
  | succ m ih =>
      calc orbitG eps row x0 (m + 1) = Gmap eps row (orbitG eps row x0 m) := rfl
        _ ≤ Gmap eps row (orbitG eps row x0 (m + 1)) := Gmap_mono heps hn row ih
        _ = orbitG eps row x0 (m + 1 + 1) := rfl

theorem orbitG_step_down {n : ℕ} {eps : ℝ} (heps : 0 < eps) (hn : 0 < n)
    (row : Fin n → ℝ) (x0 : ℝ) (h01 : orbitG eps row x0 1 ≤ x0) :
    ∀ m, orbitG eps row x0 (m + 1) ≤ orbitG eps row x0 m := by
  intro m
  induction m with
  | zero => exact h01
  | succ m ih =>
      calc orbitG eps row x0 (m + 1 + 1) = Gmap eps row (orbitG eps row x0 (m + 1)) := rfl
        _ ≤ Gmap eps row (orbitG eps row x0 m) := Gmap_mono heps hn row ih
        _ = orbitG eps row x0 (m + 1) := rfl

theorem orbitG_le {n : ℕ} {eps : ℝ} (heps : 0 < eps) (j0 : Fin n)
    (row : Fin n → ℝ) (x0 : ℝ) :
    ∀ m, orbitG eps row x0 m ≤ max (-(row j0)) x0 := by
  intro m
  induction m with
  | zero => exact le_max_right _ _
  | succ m ih =>
      calc orbitG eps row x0 (m + 1) = Gmap eps row (orbitG eps row x0 m) := rfl
        _ ≤ max (-(row j0)) (orbitG eps row x0 m) := Gmap_le heps j0 row _
        _ ≤ max (-(row j0)) (max (-(row j0)) x0) := max_le_max le_rfl ih
        _ = max (-(row j0)) x0 := by rw [← max_assoc, max_self]

theorem orbitG_ge {n : ℕ} {eps : ℝ} (heps : 0 < eps) (hn : 0 < n)
    (row : Fin n → ℝ) (x0 : ℝ) :
    ∀ m, min (-(eps * Real.log (∑ j, Real.exp (row j / eps)))) x0 ≤
      orbitG eps row x0 m := by
  intro m
  cases m with
  | zero => exact min_le_right _ _
  | succ m => exact le_trans (min_le_left _ _) (Gmap_ge heps hn row _)

theorem orbitG_tendsto {n : ℕ} {eps : ℝ} (heps : 0 < eps) (hn : 0 < n)
    (row : Fin n → ℝ) (x0 : ℝ) :
    ∃ L, Filter.Tendsto (orbitG eps row x0) Filter.atTop (nhds L) := by
  have hbddA : BddAbove (Set.range (orbitG eps row x0)) := by
    refine ⟨max (-(row ⟨0, hn⟩)) x0, fun x hx => ?_⟩
    obtain ⟨m, rfl⟩ := hx
    exact orbitG_le heps ⟨0, hn⟩ row x0 m
  have hbddB : BddBelow (Set.range (orbitG eps row x0)) := by
    refine ⟨min (-(eps * Real.log (∑ j, Real.exp (row j / eps)))) x0, fun x hx => ?_⟩
    obtain ⟨m, rfl⟩ := hx
    exact orbitG_ge heps hn row x0 m
  rcases le_total x0 (orbitG eps row x0 1) with hdir | hdir
  · exact ⟨_, tendsto_atTop_ciSup
      (monotone_nat_of_le_succ (orbitG_step_up heps hn row x0 hdir)) hbddA⟩
  · exact ⟨_, tendsto_atTop_ciInf
      (antitone_nat_of_succ_le (orbitG_step_down heps hn row x0 hdir)) hbddB⟩

theorem exp_diff_tendsto {eps : ℝ} {f : ℕ → ℝ} {L : ℝ}
    (hlim : Filter.Tendsto f Filter.atTop (nhds L)) :
    Filter.Tendsto (fun m => Real.exp ((f m - f (m + 1)) / eps))
      Filter.atTop (nhds 1) := by
  have hlim1 : Filter.Tendsto (fun m => f (m + 1)) Filter.atTop (nhds L) :=
    hlim.comp (Filter.tendsto_add_atTop_nat 1)
  have hdiff : Filter.Tendsto (fun m => (f m - f (m + 1)) / eps)
      Filter.atTop (nhds 0) := by
    have := (hlim.sub hlim1).div_const eps
    simpa using this
  have := (Real.continuous_exp.tendsto 0).comp hdiff
  simpa using this

/-- A row of solver output in the `b = -relu(scores + a)` closed form
sums to `exp((a - G(a)) / eps)`. -/
theorem sum_exp_min_eq {n : ℕ} {eps : ℝ} (heps : 0 < eps) (hn : 0 < n)
    (r : Fin n → ℝ) (A : ℝ) :
    ∑ j, Real.exp ((r j + A + -(relu (r j + A))) / eps) =
      Real.exp ((A - Gmap eps r A) / eps) := by
  have hout : ∀ j : Fin n, Real.exp ((r j + A + -(relu (r j + A))) / eps) =
      Real.exp (min (r j) (-A) / eps) * Real.exp (A / eps) := by
    intro j
    rw [← Real.exp_add, div_add_div_same]
    congr 1
    have h := sub_relu_min (r j) (-A)
    rw [sub_neg_eq_add] at h
    congr 1
    linarith
  have hsum : ∑ j, Real.exp ((r j + A + -(relu (r j + A))) / eps) =
      (∑ j, Real.exp (min (r j) (-A) / eps)) * Real.exp (A / eps) := by
    rw [Finset.sum_mul]
    exact Finset.sum_congr rfl fun j _ => hout j
  have hSig2 : ∑ j, Real.exp (min (r j) (-A) / eps) =
      Real.exp (-(Gmap eps r A) / eps) := by
    rw [Gmap, neg_neg,
      mul_comm eps (Real.log (∑ j, Real.exp (min (r j) (-A) / eps))),
      mul_div_assoc, div_self (ne_of_gt heps), mul_one]
    exact (Real.exp_log (gsum_pos hn eps r A)).symm
  rw [hsum, hSig2, ← Real.exp_add]
  congr 1
  rw [div_add_div_same, neg_add_eq_sub]

/-- The loop state of a masked `k = 1` run after `m + 1` iterations:
the loop-local scores carry the sentinel, and the dual follows the
`Gmap` orbit on the masked row started from the first iteration's value
`a1M` (whose `b` still came from the raw scores). -/
theorem coorStep_some_iterate {q n : ℕ} (mv eps : ℝ) (s : Mat q n)
    (mask : Fin q → Fin n → Bool) (m : ℕ) :
    (coorStep (some mask) mv 1 eps relu)^[m + 1] (coorInit relu s) =
      { s := maskFill mask mv s,
        a := fun i => orbitG eps (maskFill mask mv s i)
          (a1M eps (maskFill mask mv s i) (s i)) m,
        b := fun i j => -(relu (maskFill mask mv s i j +
          orbitG eps (maskFill mask mv s i)
            (a1M eps (maskFill mask mv s i) (s i)) m)) } := by
  induction m with
  | zero =>
      rw [Function.iterate_one]
      simp only [coorStep, coorInit, applyMask]
      congr 1
  | succ m ih =>
      rw [Function.iterate_succ_apply', ih]
      simp only [coorStep, applyMask, maskFill_idem]
      congr 1
      · funext i
        exact Gmap_eq_step_form eps (maskFill mask mv s i) _
      · funext i j
        rw [Gmap_eq_step_form eps (maskFill mask mv s i)]
        rfl

/-- The total row mass of a masked `k = 1` run after `m + 1` iterations
is `exp((A m - A (m + 1)) / eps)` for the masked-row dual orbit `A`. -/
theorem rowMassM_eq {q n : ℕ} (s : Mat q n) (eps : ℝ) (heps : 0 < eps)
    (hn : 0 < n) (mask : Fin q → Fin n → Bool) (mv : ℝ) (i : Fin q) (m : ℕ) :
    ∑ j, coor_descent s (m + 1) 1 eps relu (some mask) mv i j =
      Real.exp ((orbitG eps (maskFill mask mv s i)
          (a1M eps (maskFill mask mv s i) (s i)) m -
        orbitG eps (maskFill mask mv s i)
          (a1M eps (maskFill mask mv s i) (s i)) (m + 1)) / eps) := by
  have hentry : ∀ j, coor_descent s (m + 1) 1 eps relu (some mask) mv i j =
      Real.exp ((maskFill mask mv s i j +
        orbitG eps (maskFill mask mv s i) (a1M eps (maskFill mask mv s i) (s i)) m +
        -(relu (maskFill mask mv s i j +
          orbitG eps (maskFill mask mv s i)
            (a1M eps (maskFill mask mv s i) (s i)) m))) / eps) := by
    intro j
    simp only [coor_descent, coorStep_some_iterate mv eps s mask m, applyMask,
      maskFill_idem]
  have h1 : ∑ j, coor_descent s (m + 1) 1 eps relu (some mask) mv i j =
      ∑ j, Real.exp ((maskFill mask mv s i j +
        orbitG eps (maskFill mask mv s i) (a1M eps (maskFill mask mv s i) (s i)) m +
        -(relu (maskFill mask mv s i j +
          orbitG eps (maskFill mask mv s i)
            (a1M eps (maskFill mask mv s i) (s i)) m))) / eps) :=
    Finset.sum_congr rfl fun j _ => hentry j
  rw [h1, sum_exp_min_eq heps hn (maskFill mask mv s i), orbitG_succ]

/-- C5: (general part) for every score matrix and every fixed `eps > 0`,
the total mass of each solver output row (k = 1, all entries valid)
converges to `1` as `n_iters` grows; (fixed-example part) on the spec's
concrete small example the convergence is monotone: every row mass is at
least `1` and the masses are nonincreasing in the iteration count;
(masked part) for every score matrix and every validity mask whose row
holds at least one valid entry — the repo's causal masks always do —
the row's mass over the masked-valid entries eventually stays within
any tolerance exceeding the sentinel leakage bound
`n * exp((mv + max(-s_valid, a_1)) / eps)`, a bound that is
astronomically below `1e-3` for the float32 sentinel. -/
theorem c5_row_mass_convergence :
    (∀ (q n : ℕ) (s : Mat q n) (eps : ℝ), 0 < eps → 0 < n →
      ∀ (mv : ℝ) (i : Fin q),
        Filter.Tendsto (fun m => ∑ j, coor_descent s m 1 eps relu none mv i j)
          Filter.atTop (nhds 1)) ∧
      (∀ m : ℕ,
        1 ≤ (∑ j, coor_descent c6s m 1 (0.1 : ℝ) relu (some fun _ _ => true)
            (-float32Max) 0 j) ∧
          (∑ j, coor_descent c6s (m + 1) 1 (0.1 : ℝ) relu (some fun _ _ => true)
            (-float32Max) 0 j) ≤
            ∑ j, coor_descent c6s m 1 (0.1 : ℝ) relu (some fun _ _ => true)
              (-float32Max) 0 j) ∧
      (∀ (q n : ℕ) (s : Mat q n) (eps mv : ℝ), 0 < eps →
        ∀ (mask : Fin q → Fin n → Bool) (i : Fin q) (jv : Fin n),
          mask i jv = true →
          ∀ tol : ℝ,
            (n : ℝ) * Real.exp ((mv + max (-(s i jv))
              (a1M eps (maskFill mask mv s i) (s i))) / eps) < tol →
            ∀ᶠ m in Filter.atTop,
              |(∑ j ∈ Finset.univ.filter (fun j => mask i j = true),
                coor_descent s m 1 eps relu (some mask) mv i j) - 1| < tol) := by
  refine ⟨?_, ?_, ?_⟩
  · intro q n s eps heps hn mv i
    have hmassfun : (fun m => ∑ j, coor_descent s m 1 eps relu none mv i j) =
        fun m => Real.exp ((duals eps (s i) m - duals eps (s i) (m + 1)) / eps) :=
      funext fun m => rowMass_eq s eps heps hn mv i m
    rw [hmassfun]
    have hbddA : BddAbove (Set.range (duals eps (s i))) := by
      refine ⟨max (-(s i ⟨0, hn⟩)) 0, fun x hx => ?_⟩
      obtain ⟨m, rfl⟩ := hx
      exact duals_le heps hn (s i) m
    have hbddB : BddBelow (Set.range (duals eps (s i))) := by
      refine ⟨min (-(eps * Real.log (∑ j, Real.exp (s i j / eps)))) 0, fun x hx => ?_⟩
      obtain ⟨m, rfl⟩ := hx
      exact duals_ge heps hn (s i) m
    have hexp0 : ∀ {L : ℝ}, Filter.Tendsto (duals eps (s i)) Filter.atTop (nhds L) →
        Filter.Tendsto
          (fun m => Real.exp ((duals eps (s i) m - duals eps (s i) (m + 1)) / eps))
          Filter.atTop (nhds 1) := by
      intro L hlim
      have hlim1 : Filter.Tendsto (fun m => duals eps (s i) (m + 1))
          Filter.atTop (nhds L) := hlim.comp (Filter.tendsto_add_atTop_nat 1)
      have hdiff : Filter.Tendsto
          (fun m => (duals eps (s i) m - duals eps (s i) (m + 1)) / eps)
          Filter.atTop (nhds 0) := by
        have := (hlim.sub hlim1).div_const eps
        simpa using this
      have := (Real.continuous_exp.tendsto 0).comp hdiff
      simpa using this
    rcases le_total (duals eps (s i) 0) (duals eps (s i) 1) with hdir | hdir
    · have hmono : Monotone (duals eps (s i)) :=
        monotone_nat_of_le_succ (duals_step_up heps hn (s i) hdir)
      exact hexp0 (tendsto_atTop_ciSup hmono hbddA)
    · have hanti : Antitone (duals eps (s i)) :=
        antitone_nat_of_succ_le (duals_step_down heps hn (s i) hdir)
      exact hexp0 (tendsto_atTop_ciInf hanti hbddB)
  · intro m
    have heps : (0 : ℝ) < 0.1 := by norm_num
    have hn3 : (0 : ℕ) < 3 := by norm_num
    have hmass : ∀ m' : ℕ,
        (∑ j, coor_descent c6s m' 1 (0.1 : ℝ) relu (some fun _ _ => true)
          (-float32Max) 0 j) =
          Real.exp ((duals (0.1 : ℝ) (c6s 0) m' - duals (0.1 : ℝ) (c6s 0) (m' + 1)) /
            (0.1 : ℝ)) := by
      intro m'
      simp only [coor_descent_allTrue]
      exact rowMass_eq c6s (0.1 : ℝ) heps hn3 (-float32Max) 0 m'
    have hd1 : duals (0.1 : ℝ) (c6s 0) 1 ≤ duals (0.1 : ℝ) (c6s 0) 0 := by
      have h10 : duals (0.1 : ℝ) (c6s 0) 1 = Gmap (0.1 : ℝ) (c6s 0) 0 :=
        duals_succ_G (0.1 : ℝ) (c6s 0) 0
      have hsum3 : ∑ j, Real.exp (min (c6s 0 j) (-(0 : ℝ)) / (0.1 : ℝ)) = 3 := by
        rw [Fin.sum_univ_three]
        norm_num [c6s]
      show duals (0.1 : ℝ) (c6s 0) 1 ≤ 0
      rw [h10, Gmap, hsum3]
      have h3 : (0 : ℝ) ≤ Real.log 3 := Real.log_nonneg (by norm_num)
      nlinarith
    have hstep : ∀ m' : ℕ, duals (0.1 : ℝ) (c6s 0) (m' + 1) ≤ duals (0.1 : ℝ) (c6s 0) m' :=
      duals_step_down heps hn3 (c6s 0) hd1
    have hshrink : duals (0.1 : ℝ) (c6s 0) (m + 1) - duals (0.1 : ℝ) (c6s 0) (m + 2) ≤
        duals (0.1 : ℝ) (c6s 0) m - duals (0.1 : ℝ) (c6s 0) (m + 1) := by
      have h := Gmap_lip heps hn3 (c6s 0) (hstep m)
      rwa [← duals_succ_G (0.1 : ℝ) (c6s 0) m,
        ← duals_succ_G (0.1 : ℝ) (c6s 0) (m + 1)] at h
    constructor
    · rw [hmass m]
      have h0 : 0 ≤ (duals (0.1 : ℝ) (c6s 0) m - duals (0.1 : ℝ) (c6s 0) (m + 1)) /
          (0.1 : ℝ) := div_nonneg (by linarith [hstep m]) (by norm_num)
      calc (1 : ℝ) = Real.exp 0 := Real.exp_zero.symm
        _ ≤ _ := Real.exp_le_exp.2 h0
    · rw [hmass m, hmass (m + 1)]
      refine Real.exp_le_exp.2 ((div_le_div_iff_of_pos_right (by norm_num)).2 ?_)
      exact hshrink
  · intro q n s eps mv heps mask i jv hjv tol htol
    have hn : 0 < n := jv.pos
    obtain ⟨L, hL⟩ := orbitG_tendsto heps hn (maskFill mask mv s i)
      (a1M eps (maskFill mask mv s i) (s i))
    have htot : Filter.Tendsto
        (fun m => ∑ j, coor_descent s (m + 1) 1 eps relu (some mask) mv i j)
        Filter.atTop (nhds 1) := by
      have hfun : (fun m => ∑ j, coor_descent s (m + 1) 1 eps relu (some mask) mv i j) =
          fun m => Real.exp ((orbitG eps (maskFill mask mv s i)
              (a1M eps (maskFill mask mv s i) (s i)) m -
            orbitG eps (maskFill mask mv s i)
              (a1M eps (maskFill mask mv s i) (s i)) (m + 1)) / eps) :=
        funext fun m => rowMassM_eq s eps heps hn mask mv i m
      rw [hfun]
      exact exp_diff_tendsto hL
    have hU : ∀ m, orbitG eps (maskFill mask mv s i)
        (a1M eps (maskFill mask mv s i) (s i)) m ≤
          max (-(s i jv)) (a1M eps (maskFill mask mv s i) (s i)) := by
      intro m
      have h := orbitG_le heps jv (maskFill mask mv s i)
        (a1M eps (maskFill mask mv s i) (s i)) m
      rwa [show maskFill mask mv s i jv = s i jv by simp [maskFill, hjv]] at h
    have hinvE : ∀ (m : ℕ) (j : Fin n), mask i j = false →
        coor_descent s (m + 1) 1 eps relu (some mask) mv i j ≤
          Real.exp ((mv + max (-(s i jv))
            (a1M eps (maskFill mask mv s i) (s i))) / eps) := by
      intro m j hj
      have he : coor_descent s (m + 1) 1 eps relu (some mask) mv i j =
          Real.exp ((mv + orbitG eps (maskFill mask mv s i)
              (a1M eps (maskFill mask mv s i) (s i)) m +
            -(relu (mv + orbitG eps (maskFill mask mv s i)
              (a1M eps (maskFill mask mv s i) (s i)) m))) / eps) := by
        simp only [coor_descent, coorStep_some_iterate mv eps s mask m, applyMask,
          maskFill_idem]
        rw [show maskFill mask mv s i j = mv by simp [maskFill, hj]]
      rw [he]
      refine Real.exp_le_exp.2 ((div_le_div_iff_of_pos_right heps).2 ?_)
      have hr : (0 : ℝ) ≤ relu (mv + orbitG eps (maskFill mask mv s i)
          (a1M eps (maskFill mask mv s i) (s i)) m) := le_max_right _ _
      have hA := hU m
      linarith
    have hinv : ∀ m : ℕ,
        (∑ j ∈ Finset.univ.filter (fun j => ¬ mask i j = true),
          coor_descent s (m + 1) 1 eps relu (some mask) mv i j) ≤
          (n : ℝ) * Real.exp ((mv + max (-(s i jv))
            (a1M eps (maskFill mask mv s i) (s i))) / eps) := by
      intro m
      have hcard : (Finset.univ.filter (fun j : Fin n => ¬ mask i j = true)).card ≤ n := by
        calc (Finset.univ.filter (fun j : Fin n => ¬ mask i j = true)).card ≤
            (Finset.univ : Finset (Fin n)).card := Finset.card_filter_le _ _
          _ = n := by simp
      calc (∑ j ∈ Finset.univ.filter (fun j => ¬ mask i j = true),
            coor_descent s (m + 1) 1 eps relu (some mask) mv i j) ≤
          (Finset.univ.filter (fun j : Fin n => ¬ mask i j = true)).card •
            Real.exp ((mv + max (-(s i jv))
              (a1M eps (maskFill mask mv s i) (s i))) / eps) := by
            refine Finset.sum_le_card_nsmul _ _ _ ?_
            intro j hj
            refine hinvE m j ?_
            have h4 := (Finset.mem_filter.1 hj).2
            simpa using h4
        _ ≤ (n : ℝ) * Real.exp ((mv + max (-(s i jv))
              (a1M eps (maskFill mask mv s i) (s i))) / eps) := by
            rw [nsmul_eq_mul]
            refine mul_le_mul_of_nonneg_right ?_ (le_of_lt (Real.exp_pos _))
            exact_mod_cast hcard
    have hinv0 : ∀ m : ℕ,
        0 ≤ ∑ j ∈ Finset.univ.filter (fun j => ¬ mask i j = true),
          coor_descent s (m + 1) 1 eps relu (some mask) mv i j :=
      fun m => Finset.sum_nonneg fun j _ =>
        le_of_lt (coor_descent_entry_pos s (m + 1) 1 eps relu (some mask) mv i j)
    have hlt : 0 < tol - (n : ℝ) * Real.exp ((mv + max (-(s i jv))
        (a1M eps (maskFill mask mv s i) (s i))) / eps) := by linarith
    obtain ⟨N, hN⟩ := Metric.tendsto_atTop.1 htot _ hlt
    refine Filter.eventually_atTop.2 ⟨N + 1, fun m hm => ?_⟩
    obtain ⟨m', rfl⟩ : ∃ m', m = m' + 1 := ⟨m - 1, by omega⟩
    have h1 := hN m' (by omega)
    rw [Real.dist_eq] at h1
    have hsplit := Finset.sum_filter_add_sum_filter_not Finset.univ
      (fun j => mask i j = true)
      (fun j => coor_descent s (m' + 1) 1 eps relu (some mask) mv i j)
    have h2 := hinv m'
    have h3 := hinv0 m'
    have hre : (∑ j ∈ Finset.univ.filter (fun j => mask i j = true),
        coor_descent s (m' + 1) 1 eps relu (some mask) mv i j) - 1 =
        ((∑ j, coor_descent s (m' + 1) 1 eps relu (some mask) mv i j) - 1) -
          ∑ j ∈ Finset.univ.filter (fun j => ¬ mask i j = true),
            coor_descent s (m' + 1) 1 eps relu (some mask) mv i j := by
      rw [← hsplit]
      ring
    rw [hre]
    calc |(((∑ j, coor_descent s (m' + 1) 1 eps relu (some mask) mv i j) - 1) -
          ∑ j ∈ Finset.univ.filter (fun j => ¬ mask i j = true),
            coor_descent s (m' + 1) 1 eps relu (some mask) mv i j)| ≤
        |(∑ j, coor_descent s (m' + 1) 1 eps relu (some mask) mv i j) - 1| +
          |∑ j ∈ Finset.univ.filter (fun j => ¬ mask i j = true),
            coor_descent s (m' + 1) 1 eps relu (some mask) mv i j| := abs_sub _ _
      _ < tol := by
          rw [abs_of_nonneg h3]
          linarith

/-- Witness for `c5_row_mass_convergence`: the unmasked part at a
concrete 1 × 1 input, and the masked part at a concrete 1 × 2 input
with the boundary mask `[[true, false]]`, the float32 sentinel and the
tolerance `1e-3`. -/
theorem c5_row_mass_convergence_witness :
    (Filter.Tendsto
      (fun m => ∑ j, coor_descent (fun _ _ => (0 : ℝ) : Mat 1 1) m 1 1 relu none
        (-float32Max) 0 j)
      Filter.atTop (nhds 1)) ∧
    ∀ᶠ m in Filter.atTop,
      |(∑ j ∈ Finset.univ.filter (fun j : Fin 2 => decide ((j : ℕ) = 0) = true),
        coor_descent (fun _ _ => (0 : ℝ) : Mat 1 2) m 1 1 relu
          (some fun _ j => decide ((j : ℕ) = 0)) (-float32Max) 0 j) - 1| < 1e-3 := by
  constructor
  · exact c5_row_mass_convergence.1 1 1 (fun _ _ => (0 : ℝ)) 1 (by norm_num)
      (by norm_num) (-float32Max) 0
  · refine c5_row_mass_convergence.2.2 1 2 (fun _ _ => (0 : ℝ)) 1 (-float32Max)
      (by norm_num) (fun _ j => decide ((j : ℕ) = 0)) 0 0 (by decide) 1e-3 ?_
    have hA : a1M 1 (maskFill (fun _ j => decide ((j : ℕ) = 0)) (-float32Max)
        (fun _ _ => (0 : ℝ) : Mat 1 2) 0) ((fun _ _ => (0 : ℝ) : Mat 1 2) 0) ≤ 0 := by
      unfold a1M
      rw [log_one_eq, mul_zero, zero_sub, one_mul]
      have hlse : 0 ≤ logsumexp (fun j : Fin 2 =>
          (maskFill (fun _ j' => decide ((j' : ℕ) = 0)) (-float32Max)
            (fun _ _ => (0 : ℝ) : Mat 1 2) 0 j +
            -(relu ((fun _ _ => (0 : ℝ) : Mat 1 2) 0 j))) / 1) := by
        unfold logsumexp
        refine Real.log_nonneg ?_
        rw [Fin.sum_univ_two]
        beta_reduce
        have ht0 : (maskFill (fun _ j' => decide ((j' : ℕ) = 0)) (-float32Max)
            (fun _ _ => (0 : ℝ) : Mat 1 2) 0 0 +
            -(relu ((fun _ _ => (0 : ℝ) : Mat 1 2) 0 0))) / 1 = 0 := by
          norm_num [maskFill, relu]
        rw [ht0, Real.exp_zero]
        have := Real.exp_pos ((maskFill (fun _ j' => decide ((j' : ℕ) = 0)) (-float32Max)
            (fun _ _ => (0 : ℝ) : Mat 1 2) 0 1 +
            -(relu ((fun _ _ => (0 : ℝ) : Mat 1 2) 0 1))) / 1)
        linarith
      linarith
    have hmax : max (-((fun _ _ => (0 : ℝ) : Mat 1 2) 0 0))
        (a1M 1 (maskFill (fun _ j => decide ((j : ℕ) = 0)) (-float32Max)
          (fun _ _ => (0 : ℝ) : Mat 1 2) 0) ((fun _ _ => (0 : ℝ) : Mat 1 2) 0)) = 0 := by
      rw [show -((fun _ _ => (0 : ℝ) : Mat 1 2) 0 0) = 0 by norm_num]
      exact max_eq_left hA
    rw [hmax]
    have hexp : Real.exp (-float32Max) ≤ (float32Max + 1)⁻¹ := by
      have h1 : float32Max + 1 ≤ Real.exp float32Max := by
        have := Real.add_one_le_exp float32Max
        linarith
      have hpos : (0 : ℝ) < float32Max + 1 := by norm_num [float32Max]
      rw [Real.exp_neg]
      exact inv_anti₀ hpos h1
    have hcast : ((2 : ℕ) : ℝ) = 2 := by norm_num
    rw [hcast, show (-float32Max + 0) / 1 = -float32Max by ring]
    have hfin : 2 * (float32Max + 1)⁻¹ < 1e-3 := by
      rw [float32Max]
      norm_num
    have hep := Real.exp_pos (-float32Max)
    linarith

end CDA
